import Mathlib

namespace SLBot

/-!
Shallow embedding of `src/bot.py` (SLBot, a Discord front end that drives an
SCP:SL game server living inside a tmux session named `scpsl`).

Modelling conventions:
- tmux/subprocess side effects of a handler are collected in an explicit
  `Effect` list; Discord replies and webhook logging are not session effects
  and are returned as result values instead.
- Answers of the operating system (process table probe `pgrep`, tmux
  `has-session`, pane captures) are supplied by explicit world records; a
  bounded poll loop `for i in range(n): ... sleep(t)` becomes a bounded
  search over `i < n` against the world's answer sequence.
- Python strings are `List Char` (one entry per code point, as in Python);
  the `\w` word class of `re` is modelled over its ASCII part
  (alphanumeric or underscore), which covers the console text involved.
- Pure text manipulation (IP redaction of `fetchlogs`, roster parsing of
  `onlineplayers`, line diffing of `console`) is translated directly,
  including the exact regular expressions with Python's leftmost,
  backtracking match semantics.
-/

/-! ## Basic utilities -/

/-- One observable tmux/subprocess side effect of a handler. -/
inductive Effect where
  | sendKeys (text : String)
  | killSession
  | newSession
  | capturePane
  | hasSessionQuery
  deriving DecidableEq

/-- Python whitespace class `\s` (ASCII part), also used by `str.strip`. -/
def isPyWS (c : Char) : Bool :=
  c = ' ' || c = '\t' || c = '\n' || c = '\r' || c = '\x0b' || c = '\x0c'

/-- Does `pat` occur at the head of `s`? -/
def leadMatches : List Char → List Char → Bool
  | [], _ => true
  | _ :: _, [] => false
  | p :: ps, c :: cs => p = c && leadMatches ps cs

/-- Python's substring test `pat in s`. -/
def containsSub (pat : List Char) : List Char → Bool
  | [] => leadMatches pat []
  | s@(_ :: cs) => leadMatches pat s || containsSub pat cs

/-- Substring test on `String`s: `strContains s pat` is Python's `pat in s`. -/
def strContains (s pat : String) : Bool := containsSub pat.data s.data

/-- Strip a literal leading part, returning the rest on success. -/
def stripPre : List Char → List Char → Option (List Char)
  | [], s => some s
  | _ :: _, [] => none
  | p :: ps, c :: cs => if p = c then stripPre ps cs else none

/-- First success of `f` along a list of candidates, in order. -/
def firstSome {α β : Type} (f : α → Option β) : List α → Option β
  | [] => none
  | a :: rest =>
    match f a with
    | some b => some b
    | none => firstSome f rest

/-- Bounded existence test: does `p i` hold for some attempt `i < bound`?
Models the early-exit poll loops `for i in range(bound): if p(i): break`. -/
def boundedExists (bound : Nat) (p : Nat → Bool) : Bool :=
  (List.range bound).any p

/-- First `some` of `f start`, `f (start+1)`, ... within `fuel` attempts. -/
def boundedFirstAux {α : Type} (f : Nat → Option α) : Nat → Nat → Option α
  | _, 0 => none
  | start, fuel + 1 =>
    match f start with
    | some a => some a
    | none => boundedFirstAux f (start + 1) fuel

/-- First `some` of `f 0`, ..., `f (n-1)`: the bounded confirmation polls. -/
def boundedFirst {α : Type} (n : Nat) (f : Nat → Option α) : Option α :=
  boundedFirstAux f 0 n

/-! ## Output scanner: line diffing (`console` confirm, bot.py:1041-1055) -/

/-- `after_lines[len(before_lines):]` — the new console lines appended after a
command, as computed in `RunConsoleView.confirm`. -/
def diffNewLines (before after : List String) : List String :=
  after.drop before.length

/-! ## Permissions (`has_permission`, bot.py:117-130) -/

/-- A guild member as far as authorization is concerned: just its role ids.
A non-member invoker is `none` (the `isinstance(member, discord.Member)`
test fails for it). -/
structure Member where
  roles : List Nat

/-- `COMMAND_PERMISSIONS.get(cmd_name, [])`: the permission table is a list of
`(command name, allowed role ids)` pairs; a command that is absent maps to
`[]`.  A permission file that failed to load is the empty table. -/
def lookupPerm (table : List (String × List Nat)) (cmd : String) : List Nat :=
  match table.find? (fun e => e.1 == cmd) with
  | some e => e.2
  | none => []

/-- `has_permission(member, cmd_name)`:
`isinstance(member, discord.Member) and any(r.id in allowed for r in member.roles)`. -/
def has_permission (table : List (String × List Nat)) (member : Option Member)
    (cmd : String) : Bool :=
  match member with
  | none => false
  | some m => m.roles.any (fun r => (lookupPerm table cmd).contains r)

/-- Replies the `console` slash-command handler can give before showing the
confirmation view. -/
inductive ConsoleReply where
  | disabledMsg
  | permissionDenied
  | notRunning
  | confirmPrompt
  deriving DecidableEq

/-- Name of the `console` slash command. -/
def consoleCmdName : String := "console"

/-- The guard part of the `console` handler (bot.py:1000-1023): feature flag,
then permission check, then the tmux `has-session` probe, then the
confirmation prompt.  The denial paths return before any tmux call. -/
def consoleCommandHandler (disableConsole : Bool)
    (table : List (String × List Nat)) (member : Option Member)
    (sessionExists : Bool) : ConsoleReply × List Effect :=
  if disableConsole then (ConsoleReply.disabledMsg, [])
  else if !has_permission table member consoleCmdName then
    (ConsoleReply.permissionDenied, [])
  else if !sessionExists then (ConsoleReply.notRunning, [Effect.hasSessionQuery])
  else (ConsoleReply.confirmPrompt, [Effect.hasSessionQuery])

/-! ## Lifecycle: restart (`restartserver`, bot.py:428-495) -/

/-- The graceful-exit console line. -/
def exitLine : String := "exit"

/-- World as seen by `restartserver`: the initial process probe, the poll
answers while waiting for the process to disappear and to reappear, and
whether one of the awaited Discord API calls raises inside the `try` block. -/
structure RestartWorld where
  procRunning : Bool
  shutdownPoll : Nat → Bool
  startPoll : Nat → Bool
  apiFails : Bool

/-- Outcome of `restartserver`. -/
inductive RestartResult where
  | inProgress
  | nothingToRestart
  | restarted
  | timedOut
  | errorReported
  deriving DecidableEq

/-- Body of the restart `try` block: check the process, send `exit`, wait (the
10-attempt disappearance poll only sleeps; it does not change the outcome),
recreate the tmux session unconditionally, and poll 60 times for the process
to reappear. -/
def restartBody (w : RestartWorld) : RestartResult × List Effect :=
  if !w.procRunning then (RestartResult.nothingToRestart, [])
  else
    let effs := [Effect.sendKeys exitLine, Effect.newSession]
    if boundedExists 60 w.startPoll then (RestartResult.restarted, effs)
    else (RestartResult.timedOut, effs)

/-- `restartserver` around its `restart_in_progress` guard.  Takes the guard
value seen on entry and returns (result, guard value after the invocation,
session effects).  The `try/finally` of the source clears the guard on every
exit path of the guarded body — success, timeout, nothing-to-restart and
exception alike — which is why the returned guard is `false` on every
non-rejected path. -/
def restartserver (guard : Bool) (w : RestartWorld) :
    RestartResult × Bool × List Effect :=
  if guard then (RestartResult.inProgress, guard, [])
  else if w.apiFails then (RestartResult.errorReported, false, [])
  else ((restartBody w).1, false, (restartBody w).2)

/-! ## Lifecycle: start (`startserver`, bot.py:497-543) -/

/-- World as seen by `startserver`.  `sessionExists` is carried to state the
claim over all session states; the source checks only the process probe. -/
structure StartWorld where
  procRunning : Bool
  sessionExists : Bool
  startPoll : Nat → Bool

/-- Outcome of `startserver`. -/
inductive StartResult where
  | alreadyRunning
  | started
  | timedOut
  deriving DecidableEq

/-- `startserver`: refuse if the process is already running, else create the
tmux session and poll 60 times for the process to appear. -/
def startserver (w : StartWorld) : StartResult × List Effect :=
  if w.procRunning then (StartResult.alreadyRunning, [])
  else if boundedExists 60 w.startPoll then (StartResult.started, [Effect.newSession])
  else (StartResult.timedOut, [Effect.newSession])

/-! ## Lifecycle: stop (`stopserver`, bot.py:545-599) -/

/-- World as seen by `stopserver`: whether the tmux session still exists after
the 5 second grace sleep, and the 60 process-probe poll answers
(`true` = process still running at attempt `i`). -/
structure StopWorld where
  sessionAliveAfterGrace : Bool
  procPoll : Nat → Bool

/-- Outcome of `stopserver`. -/
inductive StopResult where
  | stopped
  | stopTimeout
  deriving DecidableEq

/-- Final user-visible reply of `stopserver`. -/
def stopReply : StopResult → String
  | StopResult.stopped => "✅ Server stopped successfully!"
  | StopResult.stopTimeout => "⚠️ Server stop timed out. Process may still be running."

/-- The stop-timeout reply reports that the process may still be alive. -/
def stopTimeoutText : String := "⚠️ Server stop timed out. Process may still be running."

/-- `stopserver`: send `exit`, sleep the grace interval, probe the session and
force-kill it only if it still exists, then poll 60 times for the process to
disappear. -/
def stopserver (w : StopWorld) : StopResult × List Effect :=
  let effs := Effect.sendKeys exitLine :: Effect.hasSessionQuery ::
    (if w.sessionAliveAfterGrace then [Effect.killSession] else [])
  (if boundedExists 60 (fun i => !w.procPoll i) then StopResult.stopped
   else StopResult.stopTimeout, effs)

/-! ## Console command confirmation view (`RunConsoleView`, bot.py:1026-1091) -/

/-- World as seen by the `console` confirm button: the pane captures taken
before and after the command is sent. -/
structure ConsoleWorld where
  beforeLines : List String
  afterLines : List String

/-- Outcome of a button press on the confirmation view. -/
inductive ButtonOutcome where
  | notYours
  | executed (newLines : List String)
  | cancelled
  deriving DecidableEq

/-- Sentinel used when the command produced no new console lines. -/
def noNewOutputLine : String := "<no new output>"

/-- The `✅ Confirm` button: a press by anyone but the proposer is rejected
with no session effect; otherwise capture, send the proposed command, capture
again and report the diff. -/
def consoleConfirm (authorId : Nat) (cmd : String) (uid : Nat)
    (w : ConsoleWorld) : ButtonOutcome × List Effect :=
  if uid ≠ authorId then (ButtonOutcome.notYours, [])
  else
    let raw := diffNewLines w.beforeLines w.afterLines
    let newLines := if raw.isEmpty then [noNewOutputLine] else raw
    (ButtonOutcome.executed newLines,
     [Effect.capturePane, Effect.sendKeys cmd, Effect.capturePane])

/-- The `❌ Cancel` button: a press by anyone but the proposer is rejected;
the proposer's press just closes the view — no input is sent. -/
def consoleCancel (authorId uid : Nat) : ButtonOutcome × List Effect :=
  if uid ≠ authorId then (ButtonOutcome.notYours, [])
  else (ButtonOutcome.cancelled, [])

/-- Sample command used by the witness of the two-phase claim. -/
def runCmdSample : String := "roundrestart"

/-- Sample permission table used by the deny-by-default witness. -/
def permTableSample : List (String × List Nat) := [(consoleCmdName, [5])]

/-! ## setserverstate (bot.py:601-676), private mode -/

/-- Tag the server prints in front of mode confirmations: `f"[{state.value}]"`. -/
def privateTag : String := "[private]"

/-- Expected confirmation phrase for the private mode. -/
def privateExpected : String := "hidden from the server list."

/-- Console line sent to switch to private mode: `f"!{state.value}"`. -/
def privateCmd : String := "!private"

/-- Fallback reply when no confirmation shows up within the poll budget. -/
def privateFallback : String := "No confirmation from server for private."

/-- Reply of the handlers that require a live session. -/
def notRunningReply : String := "❌ Server is not running; please start the server first."

/-- World as seen by `setserverstate`: session existence and the pane capture
of each of the 25 poll attempts, already split into lines. -/
structure StateWorld where
  sessionExists : Bool
  captures : Nat → List String

/-- Characters after the first `]`, provided no newline precedes it (the
lazy `.*?` of `^\[.*?\]` cannot cross a newline). -/
def afterCloseBracket : List Char → Option (List Char)
  | [] => none
  | ']' :: cs => some cs
  | '\n' :: _ => none
  | _ :: cs => afterCloseBracket cs

/-- Drop the maximal leading run of Python whitespace (a greedy `\s*`). -/
def dropPyWS : List Char → List Char
  | [] => []
  | c :: cs => if isPyWS c then dropPyWS cs else c :: cs

/-- `re.sub(r'^\[.*?\]\s*', '', s)`: strip a leading bracketed timestamp/tag
and the whitespace after it; any string not of that shape is unchanged. -/
def cleanLeadingTag (s : String) : String :=
  match s.data with
  | '[' :: rest =>
    match afterCloseBracket rest with
    | some tail => String.mk (dropPyWS tail)
    | none => s
  | _ => s

/-- Within one capture: the first line carrying the `[private]` tag together
with the expected phrase wins; otherwise the first merely tagged line. -/
def findConfirm (lines : List String) : Option String :=
  match lines.find? (fun l => strContains l privateTag && strContains l privateExpected) with
  | some l => some l
  | none => lines.find? (fun l => strContains l privateTag)

/-- `setserverstate` for the `private` choice: require the session, send the
mode-switch line, poll up to 25 captures for a confirmation, and reply with
the tag-stripped confirmation line or the fallback.  The per-attempt capture
subprocesses are modelled through `w.captures`. -/
def setserverstatePrivate (w : StateWorld) : String × List Effect :=
  if !w.sessionExists then (notRunningReply, [Effect.hasSessionQuery])
  else
    let conf := boundedFirst 25 (fun i => findConfirm (w.captures i))
    let final := conf.getD privateFallback
    (cleanLeadingTag final, [Effect.hasSessionQuery, Effect.sendKeys privateCmd])

/-- Sample confirmation line for the C7 witness. -/
def privConfSample : String := "[private] Server is now hidden from the server list."

/-- Sample capture sequence for the C7 witness: nothing for two attempts,
then the confirmation line. -/
def capsSample : Nat → List String :=
  fun i => if i = 2 then [privConfSample] else []

/-! ## onlineplayers roster parsing (bot.py:915-996) -/

/-- Header marker searched with Python's `in`. -/
def rosterMarker : String := "List of players"

/-- Literal part of the count regex `List of players \((\d+)\)` before the
digit group. -/
def rosterCountPre : List Char := "List of players (".data

/-- Leading digit run of a character list, and the rest. -/
def takeDigits : List Char → List Char × List Char
  | [] => ([], [])
  | c :: cs =>
    if c.isDigit then
      let r := takeDigits cs
      (c :: r.1, r.2)
    else ([], c :: cs)

/-- Decimal value of a digit run, as `int()` computes it. -/
def digitsToNat (ds : List Char) : Nat :=
  ds.foldl (fun a c => a * 10 + (c.toNat - '0'.toNat)) 0

/-- `re.search(r'List of players \((\d+)\)', line)`: leftmost position where
the literal part is followed by a nonempty digit run and `)`; the greedy
`\d+` can only stop right before a non-digit, so the maximal run is the only
candidate. -/
def extractCountAux : List Char → Option Nat
  | [] => none
  | s@(_ :: cs) =>
    match stripPre rosterCountPre s with
    | some rest =>
      let p := takeDigits rest
      match p.1, p.2 with
      | [], _ => extractCountAux cs
      | _ :: _, ')' :: _ => some (digitsToNat p.1)
      | _ :: _, _ => extractCountAux cs
    | none => extractCountAux cs

/-- Count declared by a header line; a failed regex search counts as 0. -/
def extractCount (line : String) : Nat :=
  (extractCountAux line.data).getD 0

/-- The empty string (used as an out-of-range line default). -/
def emptyS : String := ""

/-- Index of the last line containing the roster marker (`idxs[-1]`). -/
def lastHeaderIdx : List String → Option Nat
  | [] => none
  | l :: ls =>
    match lastHeaderIdx ls with
    | some j => some (j + 1)
    | none => if strContains l rosterMarker then some 0 else none

/-- Search part of `re.sub(r'^\[.*?\]\s*-\s*', '', entry)` after the opening
bracket: find a `]` (the lazy `.*?` may not cross a newline and retries later
brackets on failure) whose following whitespace run is ended by `-`; strip
through the whitespace after that dash. -/
def clean1Aux : List Char → Option (List Char)
  | [] => none
  | '\n' :: _ => none
  | ']' :: cs =>
    (match dropPyWS cs with
     | '-' :: u => some (dropPyWS u)
     | _ => clean1Aux cs)
  | _ :: cs => clean1Aux cs

/-- `re.sub(r'^\[.*?\]\s*-\s*', '', entry)`: strip a leading timestamp plus
dash decoration; entries without that shape are unchanged. -/
def clean1 (s : List Char) : List Char :=
  match s with
  | '[' :: rest =>
    (match clean1Aux rest with
     | some r => r
     | none => s)
  | _ => s

/-- `re.sub(r'^- (?![._])', '', clean)`: strip a bare leading `- ` unless the
username itself starts with `.` or `_`. -/
def clean2 (s : List Char) : List Char :=
  match s with
  | '-' :: ' ' :: rest =>
    (match rest with
     | [] => rest
     | c :: _ => if c = '.' || c = '_' then s else rest)
  | _ => s

/-- Python `str.rstrip()`. -/
def rstripStr (s : String) : String :=
  String.mk ((s.data.reverse.dropWhile isPyWS).reverse)

/-- `not entry.strip()`: the line is blank (only whitespace or empty). -/
def isBlankLine (s : String) : Bool := s.data.all isPyWS

/-- Per-entry cleanup applied by `onlineplayers`. -/
def cleanEntry (e : String) : String := rstripStr (String.mk (clean2 (clean1 e.data)))

/-- De-duplication preserving first-seen order (`list(dict.fromkeys(...))`). -/
def dedupeAux (seen : List String) : List String → List String
  | [] => []
  | x :: xs =>
    if x ∈ seen then dedupeAux seen xs
    else x :: dedupeAux (x :: seen) xs

/-- De-duplicate a roster, keeping the first occurrence of each name. -/
def dedupe (l : List String) : List String := dedupeAux [] l

/-- Line of a capture by index, defaulting to the empty string. -/
def getLineD (lines : List String) (i : Nat) : String := lines.getD i emptyS

/-- Roster parsing core of `onlineplayers`: locate the last header, extract
the declared count, return early on 0, else take the contiguous non-blank
entry lines after the header, clean each and de-duplicate. -/
def parseRoster (lines : List String) : Nat × List String :=
  match lastHeaderIdx lines with
  | none => (0, [])
  | some i =>
    let count := extractCount (getLineD lines i)
    if count = 0 then (0, [])
    else
      let entries := (lines.drop (i + 1)).takeWhile (fun l => !isBlankLine l)
      (count, dedupe (entries.map cleanEntry))

/-- Header line with declared count 3 (the C6 scenario). -/
def headerLine3 : String := "List of players (3)"

/-- Header line with declared count 0 (the second C6 scenario). -/
def headerLine0 : String := "List of players (0)"

/-- A blank line terminating the entry block. -/
def blankLine : String := ""

/-- Witness entry with timestamp-and-dash decoration. -/
def entrySampleA : String := "[12:00:00] - Alice"

/-- Witness entry whose username starts with punctuation that is preserved. -/
def entrySampleB : String := "- .dot"

/-- Witness entry without decoration. -/
def entrySampleC : String := "Bob"

/-- Witness lines before the last header, containing an older header. -/
def preSample : List String := ["List of players (7)"]

/-- Witness unrelated trailing text after the blank line. -/
def trailSample : List String := ["unrelated noise"]

/-! ## fetchlogs IP redaction (bot.py:809-913)

The source applies
`re.sub(ip_pattern, 'XXX.XXX.XXX.XXX', body)` per line with
`ip_pattern = r"\b(?:(?:25[0-5]|2[0-4]\d|[01]?\d?\d)\.){3}(?:25[0-5]|2[0-4]\d|[01]?\d?\d)\b|(?:[A-Fa-f0-9]{1,4}:){2,7}[A-Fa-f0-9]{1,4}"`.
The matcher below implements exactly this pattern with Python `re`'s
leftmost scan and ordered, greedy backtracking. -/

/-- `\d`. -/
def digitB (c : Char) : Bool := decide ('0' ≤ c ∧ c ≤ '9')

/-- `[A-Fa-f0-9]`. -/
def hexB (c : Char) : Bool :=
  digitB c || decide ('a' ≤ c ∧ c ≤ 'f') || decide ('A' ≤ c ∧ c ≤ 'F')

/-- Word character for `\b` (the ASCII part of `\w`). -/
def wordB (c : Char) : Bool :=
  digitB c || decide ('a' ≤ c ∧ c ≤ 'z') || decide ('A' ≤ c ∧ c ≤ 'Z')
    || decide (c = '_')

/-- Candidate lengths, in the engine's backtracking preference order, at
which the octet alternation `25[0-5]|2[0-4]\d|[01]?\d?\d` can match at the
head of `cs`: first the `25[0-5]` branch, then `2[0-4]\d`, then the greedy
optional paths of `[01]?\d?\d` (three digits, `[01]` + digit, two digits, one
digit).  Duplicate lengths are harmless: the continuation decides. -/
def octetLens (cs : List Char) : List Nat :=
  (match cs with
   | c0 :: c1 :: c2 :: _ =>
     if decide (c0 = '2') && decide (c1 = '5') && decide ('0' ≤ c2 ∧ c2 ≤ '5')
     then [3] else []
   | _ => []) ++
  (match cs with
   | c0 :: c1 :: c2 :: _ =>
     if decide (c0 = '2') && decide ('0' ≤ c1 ∧ c1 ≤ '4') && digitB c2
     then [3] else []
   | _ => []) ++
  ((match cs with
    | c0 :: c1 :: c2 :: _ =>
      if decide (c0 = '0' ∨ c0 = '1') && digitB c1 && digitB c2 then [3] else []
    | _ => []) ++
   (match cs with
    | c0 :: c1 :: _ =>
      if decide (c0 = '0' ∨ c0 = '1') && digitB c1 then [2] else []
    | _ => []) ++
   (match cs with
    | c0 :: c1 :: _ => if digitB c0 && digitB c1 then [2] else []
    | _ => []) ++
   (match cs with
    | c0 :: _ => if digitB c0 then [1] else []
    | _ => []))

/-- Trailing `\b` after a digit: the next character is absent or non-word. -/
def endBoundary (cs : List Char) : Bool :=
  match cs with
  | [] => true
  | c :: _ => !wordB c

/-- Backtracking match of `(?:O\.){k} O \b` at the head (`O` the octet
alternation): `k` octet-dot units, then a final octet and the trailing
boundary.  `some n` means the engine accepts `n` characters. -/
def matchV4Units : Nat → List Char → Option Nat
  | 0, cs =>
    firstSome (fun l => if endBoundary (cs.drop l) then some l else none)
      (octetLens cs)
  | k + 1, cs =>
    firstSome (fun l =>
      match cs.drop l with
      | '.' :: rest => (matchV4Units k rest).map (fun r => l + 1 + r)
      | _ => none) (octetLens cs)

/-- The IPv4 alternative (with both `\b`s) at the head, given whether the
previous character is a word character.  Every octet starts with a digit, so
the leading boundary holds iff the previous character is not a word
character; when it is, the alternative cannot match. -/
def matchIPv4 (prevW : Bool) (cs : List Char) : Option Nat :=
  if prevW then none else matchV4Units 3 cs

/-- Length of the maximal leading run of hex digits. -/
def hexRun : List Char → Nat
  | [] => 0
  | c :: cs => if hexB c then hexRun cs + 1 else 0

/-- Candidate lengths of greedy `[A-Fa-f0-9]{1,4}` at the head, longest
first: `[min (hexRun cs) 4, ..., 1]`. -/
def hexLens (cs : List Char) : List Nat :=
  ((List.range (min (hexRun cs) 4)).reverse).map (· + 1)

/-- One `[A-Fa-f0-9]{1,4}:` group at the head.  `:` is not a hex digit, so at
most one candidate length can be followed by the `:` and the group's length
is determined; the greedy order is kept anyway. -/
def matchV6Group (cs : List Char) : Option Nat :=
  firstSome (fun l =>
    match cs.drop l with
    | ':' :: _ => some (l + 1)
    | _ => none) (hexLens cs)

/-- Backtracking match of `(?:[A-Fa-f0-9]{1,4}:){2,7}[A-Fa-f0-9]{1,4}` at the
head: `remaining` further groups may be taken (the counted repetition is
greedy, so another group is preferred), `matched` were taken; finishing with
the final greedy hex run requires at least 2 groups. -/
def matchV6From : Nat → Nat → List Char → Option Nat
  | 0, matched, cs =>
    if 2 ≤ matched then (hexLens cs).head? else none
  | r + 1, matched, cs =>
    match matchV6Group cs with
    | some g =>
      (match matchV6From r (matched + 1) (cs.drop g) with
       | some n => some (g + n)
       | none => if 2 ≤ matched then (hexLens cs).head? else none)
    | none => if 2 ≤ matched then (hexLens cs).head? else none

/-- The IPv6 alternative at the head. -/
def matchIPv6 (cs : List Char) : Option Nat := matchV6From 7 0 cs

/-- The whole `ip_pattern` at the head: `re` tries the alternation left to
right, so the IPv4 alternative is attempted before the IPv6 one. -/
def matchIP (prevW : Bool) (cs : List Char) : Option Nat :=
  match matchIPv4 prevW cs with
  | some n => some n
  | none => matchIPv6 cs

/-- The replacement text. -/
def maskStr : String := "XXX.XXX.XXX.XXX"

/-- The replacement text as characters. -/
def maskChars : List Char :=
  ['X', 'X', 'X', '.', 'X', 'X', 'X', '.', 'X', 'X', 'X', '.', 'X', 'X', 'X']

/-- `re.sub(ip_pattern, mask, ·)`: scan positions left to right; at a match
emit the mask and resume right after the matched span (whose last character
is a hex digit, hence a word character for the next leading boundary);
otherwise copy one character and carry its wordness.  A match is never empty;
the `some 0` case only exists to keep the recursion structural in `fuel`,
which callers set to the input length. -/
def subScanF : Nat → Bool → List Char → List Char
  | 0, _, _ => []
  | _ + 1, _, [] => []
  | fuel + 1, w, c :: cs =>
    match matchIP w (c :: cs) with
    | some (n + 1) => maskChars ++ subScanF fuel true (cs.drop n)
    | _ => c :: subScanF fuel (wordB c) cs

/-- The redaction pass over one string (body of a line). -/
def subScan (w : Bool) (cs : List Char) : List Char := subScanF cs.length w cs

/-- Does any position of `cs` start a match of `ip_pattern`, given the
wordness of the character just before `cs`? -/
def hasMatch : Bool → List Char → Bool
  | _, [] => false
  | w, c :: cs => (matchIP w (c :: cs)).isSome || hasMatch (wordB c) cs

/-- The preserved server-address announcement marker. -/
def announceMarker : List Char := "Your server IP address is ".data

/-- Index of the first `]` in a list known to contain one. -/
def closeIdx : List Char → Nat
  | [] => 0
  | ']' :: _ => 0
  | _ :: cs => closeIdx cs + 1

/-- Per-line redaction of `fetchlogs`: an announcement line is kept whole; a
line starting with `[` and containing `]` keeps `line[:idx]` (everything
through the first `]`, at index `closeIdx line`) verbatim and is redacted
after it; any other line is redacted whole. -/
def redactLine (line : List Char) : List Char :=
  if containsSub announceMarker line then line
  else if line.head? = some '[' && line.contains ']' then
    line.take (closeIdx line + 1) ++ subScan false (line.drop (closeIdx line + 1))
  else subScan false line

/-- Line-boundary characters of Python `str.splitlines`. -/
def isLineBreakC (c : Char) : Bool :=
  c = '\n' || c = '\r' || c = '\x0b' || c = '\x0c' || c = '\x1c' ||
  c = '\x1d' || c = '\x1e' || c = '\x85' || c = '\u2028' || c = '\u2029'

/-- `str.splitlines(True)`: split keeping the terminators (`\r\n` counts as
one terminator). -/
def splitKeepAux (acc : List Char) : List Char → List (List Char)
  | [] => if acc.isEmpty then [] else [acc.reverse]
  | '\r' :: '\n' :: cs => (acc.reverse ++ ['\r', '\n']) :: splitKeepAux [] cs
  | c :: cs =>
    if isLineBreakC c then (acc.reverse ++ [c]) :: splitKeepAux [] cs
    else splitKeepAux (c :: acc) cs

/-- `str.splitlines(True)` from the start. -/
def splitKeepEnds (cs : List Char) : List (List Char) := splitKeepAux [] cs

/-- The masked scroll-back of `fetchlogs`: strip `\r` (`.replace('\r','')`),
split keeping line ends, redact per line, rejoin. -/
def maskText (stdout : List Char) : List Char :=
  ((splitKeepEnds (stdout.filter (fun c => c ≠ '\r'))).map redactLine).flatten

/-- Length of `prefix_template.format(n)` where the template is
`"📄 **Console Logs (last "`, the decimal of `n`, `" chars):**\n"`. -/
def logsHeadLen (n : Nat) : Nat :=
  "📄 **Console Logs (last ".length + (Nat.repr n).length + " chars):**\n".length

/-- The inline snippet of `fetchlogs`: the last `max_inner` characters of the
masked text, trimmed once more if the assembled message (head, two code
fences, snippet) would still exceed 2000 characters. -/
def fetchSnippet (masked : List Char) : List Char :=
  let estimated := logsHeadLen 0
  let maxInner := max 0 (2000 - estimated - 6)
  let snip :=
    if masked.length > maxInner then masked.drop (masked.length - maxInner)
    else masked
  let contentLen := logsHeadLen snip.length + 6 + snip.length
  if contentLen > 2000 then snip.drop (contentLen - 2000) else snip

/-- The exported full-log file content: exactly the masked text, untruncated. -/
def fetchFullLogs (stdout : List Char) : List Char := maskText stdout

/-- Counterexample text for C2 as stated: an address inside a preserved
timestamp-bracket survives redaction. -/
def redactCexText : List Char := "[1.2.3.4] hi\n".data

/-- Witness input for the amended C2: a bracketed line whose body holds an
address. -/
def redactWitText : List Char := "[12:00:00] peer 10.0.0.1 connected\n".data

/-- Witness announcement line: preserved whole by the redaction. -/
def announceLineSample : List Char := "Your server IP address is 5.6.7.8\n".data

/-- The redacted form of `redactWitText`. -/
def redactWitExpected : List Char :=
  "[12:00:00] peer XXX.XXX.XXX.XXX connected\n".data

/-! ### Declarative form of the pattern, for the no-leftover theorem -/

/-- Strings accepted by the octet alternation `25[0-5]|2[0-4]\d|[01]?\d?\d`. -/
def octetOK (s : List Char) : Bool :=
  match s with
  | [c] => digitB c
  | [c, d] => digitB c && digitB d
  | [c, d, e] =>
    (decide (c = '2') && decide (d = '5') && decide ('0' ≤ e ∧ e ≤ '5'))
    || (decide (c = '2') && decide ('0' ≤ d ∧ d ≤ '4') && digitB e)
    || (decide (c = '0' ∨ c = '1') && digitB d && digitB e)
  | _ => false

/-- Declarative body of the IPv4 alternative: `k` octet-dot units, then a
final octet. -/
def V4Body : Nat → List Char → Prop
  | 0, s => octetOK s = true
  | k + 1, s => ∃ o rest, s = o ++ '.' :: rest ∧ octetOK o = true ∧ V4Body k rest

/-- Declarative match of the IPv4 alternative at the head of `cs`:
`n` consumed characters, a leading and a trailing word boundary. -/
def IPv4At (prevW : Bool) (cs : List Char) (n : Nat) : Prop :=
  prevW = false ∧ n ≤ cs.length ∧ V4Body 3 (cs.take n) ∧
    (cs.get? n = none ∨ ∃ c, cs.get? n = some c ∧ wordB c = false)

/-- A hex component `[A-Fa-f0-9]{1,4}`. -/
def HexPart (g : List Char) : Prop :=
  1 ≤ g.length ∧ g.length ≤ 4 ∧ ∀ c ∈ g, hexB c = true

/-- Declarative body of the IPv6 alternative with exactly `k` groups before
the final hex component. -/
def V6Body : Nat → List Char → Prop
  | 0, s => HexPart s
  | k + 1, s => ∃ g rest, s = g ++ ':' :: rest ∧ HexPart g ∧ V6Body k rest

/-- Declarative match of the IPv6 alternative at the head of `cs`. -/
def IPv6At (cs : List Char) (n : Nat) : Prop :=
  n ≤ cs.length ∧ ∃ k, 2 ≤ k ∧ k ≤ 7 ∧ V6Body k (cs.take n)

/-- Declarative match of the whole `ip_pattern` at the head of `cs`. -/
def MatchAt (prevW : Bool) (cs : List Char) (n : Nat) : Prop :=
  IPv4At prevW cs n ∨ IPv6At cs n

/-! ## Theorems -/

/-! ### List helpers -/

theorem head?_drop_eq_get? {α : Type} :
    ∀ (n : Nat) (l : List α), (l.drop n).head? = l.get? n
  | 0, [] => rfl
  | 0, _ :: _ => rfl
  | _ + 1, [] => rfl
  | n + 1, _ :: l => head?_drop_eq_get? n l

theorem get?_drop_eq {α : Type} :
    ∀ (n m : Nat) (l : List α), (l.drop n).get? m = l.get? (n + m)
  | 0, m, l => by simp
  | n + 1, m, [] => by simp
  | n + 1, m, c :: l => by
    simp [Nat.add_right_comm]

theorem get?_take_lt {α : Type} :
    ∀ (l : List α) (n i : Nat), i < n → (l.take n).get? i = l.get? i
  | [], n, i, _ => by simp
  | _ :: _, n + 1, 0, _ => by simp
  | c :: l, n + 1, i + 1, h => by
    simpa using get?_take_lt l n i (by omega)
  | _ :: _, 0, i, h => by omega

theorem drop_cons_split {α : Type} {x : α} :
    ∀ (l : Nat) (cs rest : List α), cs.drop l = x :: rest →
      cs.length = l + 1 + rest.length ∧
      (∀ r, cs.take (l + 1 + r) = cs.take l ++ x :: rest.take r) ∧
      (∀ r, cs.get? (l + 1 + r) = rest.get? r) ∧
      cs.drop (l + 1) = rest
  | 0, cs, rest, h => by
    have hcs : cs = x :: rest := by simpa using h
    subst hcs
    refine ⟨by simp [Nat.add_comm], ?_, ?_, by simp⟩
    · intro r
      have e : 0 + 1 + r = r + 1 := by omega
      simp [e]
    · intro r
      have e : 0 + 1 + r = r + 1 := by omega
      simp [e]
  | l + 1, [], rest, h => by simp at h
  | l + 1, c :: cs, rest, h => by
    have h' : cs.drop l = x :: rest := by simpa using h
    obtain ⟨ih1, ih2, ih3, ih4⟩ := drop_cons_split l cs rest h'
    refine ⟨by simp [ih1]; omega, ?_, ?_, by simpa using ih4⟩
    · intro r
      have e : l + 1 + 1 + r = (l + 1 + r) + 1 := by omega
      rw [e]
      simp [List.take_succ_cons, ih2 r]
    · intro r
      have e : l + 1 + 1 + r = (l + 1 + r) + 1 := by omega
      rw [e]
      simpa using ih3 r

theorem take_split_at {α : Type} {x : α} :
    ∀ (o cs : List α) (n : Nat) (rest : List α), n ≤ cs.length →
      cs.take n = o ++ x :: rest →
      cs.take o.length = o ∧
      cs.drop o.length = x :: cs.drop (o.length + 1) ∧
      (cs.drop (o.length + 1)).take (n - o.length - 1) = rest ∧
      n = o.length + 1 + rest.length
  | [], [], n, rest, hn, h => by simp at h
  | [], c :: cs, 0, rest, hn, h => by simp at h
  | [], c :: cs, n + 1, rest, hn, h => by
    simp only [List.take_succ_cons, List.nil_append] at h
    obtain ⟨rfl, hrest⟩ : c = x ∧ cs.take n = rest := by
      exact ⟨by injection h, by injection h⟩
    have hlen : rest.length = n := by
      rw [← hrest]
      simp at hn ⊢
      omega
    refine ⟨rfl, by simp, ?_, by simp [hlen]; omega⟩
    simpa using hrest
  | a :: o, [], n, rest, hn, h => by
    cases n <;> simp at h
  | a :: o, c :: cs, 0, rest, hn, h => by simp at h
  | a :: o, c :: cs, n + 1, rest, hn, h => by
    simp only [List.take_succ_cons, List.cons_append] at h
    have he : c = a := by injection h
    subst he
    have h2 : cs.take n = o ++ x :: rest := by injection h
    obtain ⟨ih1, ih2, ih3, ih4⟩ := take_split_at o cs n rest (by simpa using hn) h2
    refine ⟨?_, ?_, ?_, ?_⟩
    · simp [List.take_succ_cons, ih1]
    · simpa using ih2
    · simp only [List.length_cons]
      have e : n + 1 - (o.length + 1) - 1 = n - o.length - 1 := by omega
      rw [e]
      simpa using ih3
    · simp
      omega

theorem firstSome_eq_some_ex {α β : Type} (f : α → Option β) :
    ∀ (l : List α) (b : β), firstSome f l = some b → ∃ a ∈ l, f a = some b
  | [], b, h => by simp [firstSome] at h
  | a :: l, b, h => by
    rw [firstSome] at h
    rcases ha : f a with _ | v <;> rw [ha] at h <;> simp at h
    · obtain ⟨x, hx, hfx⟩ := firstSome_eq_some_ex f l b h
      exact ⟨x, List.mem_cons_of_mem a hx, hfx⟩
    · subst h
      exact ⟨a, List.mem_cons_self a l, ha⟩

theorem firstSome_isSome_of {α β : Type} (f : α → Option β) :
    ∀ (l : List α) (a : α) (b : β), a ∈ l → f a = some b →
      (firstSome f l).isSome = true
  | [], a, b, ha, _ => by simp at ha
  | c :: l, a, b, ha, hf => by
    rcases hc : f c with _ | v
    · rw [firstSome, hc]
      rcases List.mem_cons.mp ha with rfl | ha'
      · rw [hc] at hf
        exact absurd hf (by simp)
      · exact firstSome_isSome_of f l a b ha' hf
    · rw [firstSome, hc]
      rfl

theorem firstSome_cons_some {α β : Type} (f : α → Option β) (a : α) (l : List α)
    (b : β) (h : f a = some b) : firstSome f (a :: l) = some b := by
  rw [firstSome, h]

theorem boundedExists_iff (n : Nat) (p : Nat → Bool) :
    boundedExists n p = true ↔ ∃ i < n, p i = true := by
  simp [boundedExists, List.any_eq_true, List.mem_range]

/-- C8: the new-output computation used on console-command confirmation —
taking the suffix of the after-capture's lines beyond the length of the
before-capture's lines — returns exactly the `N` appended lines, in order,
whenever the after-capture equals the before-capture plus `N` appended lines,
for any `N ≥ 0`. -/
theorem diff_new_lines_append (before ns : List String) :
    diffNewLines before (before ++ ns) = ns := by
  simp [diffNewLines]

/-- C1: a second `restartserver` invocation entered while the
`restart_in_progress` guard is set is rejected immediately with the
restart-in-progress reply and performs no session effect, and leaves the guard
as it found it; every invocation that takes the guard returns with the guard
cleared, on all exit paths (nothing-to-restart, success, timeout, exception). -/
theorem restart_guard_rejects_and_releases (w : RestartWorld) :
    restartserver true w = (RestartResult.inProgress, true, [])
    ∧ (restartserver false w).2.1 = false := by
  constructor
  · rfl
  · by_cases h : w.apiFails = true <;> simp [restartserver, h]

/-- C3: for all session states, `startserver` with the managed process already
running returns the already-running result and performs no session creation
call. -/
theorem start_already_running_no_create (sess : Bool) (poll : Nat → Bool) :
    startserver (StartWorld.mk true sess poll) = (StartResult.alreadyRunning, [])
    ∧ Effect.newSession ∉ (startserver (StartWorld.mk true sess poll)).2 := by
  constructor
  · rfl
  · intro hmem
    simp [startserver] at hmem

/-- C4: `stopserver` first sends the graceful-exit line; after the grace
interval it force-kills exactly when the tmux session (not the process) still
exists; it returns the stopped result iff the bounded 60-attempt poll sees the
process disappear, and its timeout reply reports that the process may still be
running. -/
theorem stop_kill_only_if_session_persists (w : StopWorld) :
    (stopserver w).2.head? = some (Effect.sendKeys exitLine)
    ∧ (Effect.killSession ∈ (stopserver w).2 ↔ w.sessionAliveAfterGrace = true)
    ∧ ((stopserver w).1 = StopResult.stopped ↔ ∃ i < 60, w.procPoll i = false)
    ∧ stopReply StopResult.stopTimeout = stopTimeoutText := by
  refine ⟨rfl, ?_, ?_, rfl⟩
  · cases h : w.sessionAliveAfterGrace <;> simp [stopserver, h]
  · have hb : boundedExists 60 (fun i => !w.procPoll i) = true
        ↔ ∃ i < 60, w.procPoll i = false := by
      rw [boundedExists_iff]
      simp
    by_cases h : boundedExists 60 (fun i => !w.procPoll i) = true
    · simp [stopserver, h, hb.mp h]
    · have : ¬ ∃ i < 60, w.procPoll i = false := fun hc => h (hb.mpr hc)
      simp [stopserver, h, this]

/-- C5: in the two-phase console confirmation, a confirm or cancel press by
any party other than the proposer is rejected with no effect on the session,
and the proposer's cancel yields the cancelled outcome and sends no input. -/
theorem console_two_phase_auth (a u : Nat) (cmd : String) (w : ConsoleWorld)
    (h : u ≠ a) :
    consoleConfirm a cmd u w = (ButtonOutcome.notYours, [])
    ∧ consoleCancel a u = (ButtonOutcome.notYours, [])
    ∧ consoleCancel a a = (ButtonOutcome.cancelled, []) := by
  refine ⟨?_, ?_, ?_⟩ <;> simp [consoleConfirm, consoleCancel, h]

/-- Witness for C5 at a concrete non-proposer press. -/
theorem console_two_phase_auth_witness :
    consoleConfirm 1 runCmdSample 2 (ConsoleWorld.mk [] []) = (ButtonOutcome.notYours, [])
    ∧ consoleCancel 1 2 = (ButtonOutcome.notYours, [])
    ∧ consoleCancel 1 1 = (ButtonOutcome.cancelled, []) :=
  console_two_phase_auth 1 2 runCmdSample (ConsoleWorld.mk [] []) (by decide)

/-- C10: authorization is deny-by-default: `has_permission` is false for a
non-member invoker, for a command absent from the table, for an empty (failed
to load) table, and for a member holding none of the listed roles; and the
`console` handler, given a denied invoker, replies with the permission denial
and issues no tmux call. -/
theorem deny_by_default (table : List (String × List Nat)) (m : Member)
    (cmd : String) (sess : Bool) :
    has_permission table none cmd = false
    ∧ (table.find? (fun e => e.1 == cmd) = none →
        has_permission table (some m) cmd = false)
    ∧ has_permission [] (some m) cmd = false
    ∧ ((∀ r ∈ m.roles, r ∉ lookupPerm table cmd) →
        has_permission table (some m) cmd = false)
    ∧ (∀ mem : Option Member, has_permission table mem consoleCmdName = false →
        consoleCommandHandler false table mem sess = (ConsoleReply.permissionDenied, [])) := by
  refine ⟨rfl, ?_, ?_, ?_, ?_⟩
  · intro h
    simp [has_permission, lookupPerm, h]
  · simp [has_permission, lookupPerm]
  · intro h
    simp only [has_permission]
    rw [List.any_eq_false]
    intro r hr
    simpa using h r hr
  · intro mem h
    simp [consoleCommandHandler, h]

/-- Witness for C10: the table lists only role 5 for `console`, the invoker
holds only role 7, so the permission is denied and the handler replies with
the denial without any tmux call. -/
theorem deny_by_default_witness :
    has_permission permTableSample (some (Member.mk [7])) consoleCmdName = false
    ∧ consoleCommandHandler false permTableSample (some (Member.mk [7])) true
        = (ConsoleReply.permissionDenied, []) := by
  have h := deny_by_default permTableSample (Member.mk [7]) consoleCmdName true
  have h1 : has_permission permTableSample (some (Member.mk [7])) consoleCmdName = false :=
    h.2.2.2.1 (by decide)
  exact ⟨h1, h.2.2.2.2 _ h1⟩

theorem boundedFirstAux_eq_none {α : Type} (f : Nat → Option α) :
    ∀ fuel start, (∀ i, start ≤ i → i < start + fuel → f i = none) →
      boundedFirstAux f start fuel = none := by
  intro fuel
  induction fuel with
  | zero => intro start _; rfl
  | succ n ih =>
    intro start h
    have h0 : f start = none := h start le_rfl (by omega)
    simp only [boundedFirstAux, h0]
    exact ih (start + 1) (fun i h1 h2 => h i (by omega) (by omega))

theorem boundedFirstAux_eq_some {α : Type} (f : Nat → Option α) :
    ∀ fuel start i a, start ≤ i → i < start + fuel →
      (∀ j, start ≤ j → j < i → f j = none) → f i = some a →
      boundedFirstAux f start fuel = some a := by
  intro fuel
  induction fuel with
  | zero => intro start i a h1 h2 _ _; omega
  | succ n ih =>
    intro start i a h1 h2 h3 hf
    by_cases hsi : start = i
    · subst hsi
      simp only [boundedFirstAux, hf]
    · have h0 : f start = none := h3 start le_rfl (by omega)
      simp only [boundedFirstAux, h0]
      exact ih (start + 1) i a (by omega) (by omega)
        (fun j hj1 hj2 => h3 j (by omega) hj2) hf

/-- C7: `setserverstate("private")` with an existing session sends the
mode-switch command; the reply is determined by the first of the 25 polled
captures holding a `[private]`-tagged line — preferring, within that capture,
a line that also carries the expected phrase over a merely tagged one — with
its leading bracket tag stripped; if no capture yields a tagged line, the
reply is the literal fallback (which the tag-stripper leaves unchanged). -/
theorem setstate_private_poll (caps : Nat → List String) :
    (setserverstatePrivate (StateWorld.mk true caps)).2
        = [Effect.hasSessionQuery, Effect.sendKeys privateCmd]
    ∧ ((∀ i < 25, findConfirm (caps i) = none) →
        (setserverstatePrivate (StateWorld.mk true caps)).1 = privateFallback)
    ∧ (∀ i l, i < 25 → (∀ j < i, findConfirm (caps j) = none) →
        findConfirm (caps i) = some l →
        (setserverstatePrivate (StateWorld.mk true caps)).1 = cleanLeadingTag l)
    ∧ (∀ lines l,
        lines.find? (fun x => strContains x privateTag && strContains x privateExpected)
          = some l → findConfirm lines = some l)
    ∧ (∀ lines,
        lines.find? (fun x => strContains x privateTag && strContains x privateExpected)
          = none →
        findConfirm lines = lines.find? (fun x => strContains x privateTag))
    ∧ cleanLeadingTag privateFallback = privateFallback := by
  refine ⟨rfl, ?_, ?_, ?_, ?_, rfl⟩
  · intro h
    have hb : boundedFirst 25 (fun i => findConfirm (caps i)) = none :=
      boundedFirstAux_eq_none _ 25 0 (fun i _ h2 => h i (by omega))
    simp [setserverstatePrivate, hb]
    decide
  · intro i l hi hlt hf
    have hb : boundedFirst 25 (fun i => findConfirm (caps i)) = some l :=
      boundedFirstAux_eq_some _ 25 0 i l (by omega) (by omega)
        (fun j _ hj => hlt j hj) hf
    simp [setserverstatePrivate, hb]
  · intro lines l h
    simp [findConfirm, h]
  · intro lines h
    simp [findConfirm, h]

/-- Witness for C7: the confirmation appears in the third polled capture and
is reported with its tag stripped. -/
theorem setstate_private_poll_witness :
    (setserverstatePrivate (StateWorld.mk true capsSample)).1
      = "Server is now hidden from the server list." := by
  have h := (setstate_private_poll capsSample).2.2.1 2 privConfSample
    (by decide) (by decide) (by decide)
  rw [h]
  decide

theorem lastHeaderIdx_none (ls : List String)
    (h : ∀ l ∈ ls, strContains l rosterMarker = false) :
    lastHeaderIdx ls = none := by
  induction ls with
  | nil => rfl
  | cons x xs ih =>
    have hx : strContains x rosterMarker = false := h x (List.mem_cons_self x xs)
    have ht := ih (fun l hl => h l (List.mem_cons_of_mem x hl))
    simp [lastHeaderIdx, ht, hx]

theorem lastHeaderIdx_append (pre suf : List String) (j : Nat)
    (h : lastHeaderIdx suf = some j) :
    lastHeaderIdx (pre ++ suf) = some (pre.length + j) := by
  induction pre with
  | nil => simpa using h
  | cons x xs ih =>
    show (match lastHeaderIdx (xs ++ suf) with
      | some k => some (k + 1)
      | none => if strContains x rosterMarker then some 0 else none)
      = some ((x :: xs).length + j)
    rw [ih]
    show some (xs.length + j + 1) = some (xs.length + 1 + j)
    congr 1
    omega

theorem lastHeaderIdx_cons_none (l : String) (ls : List String)
    (h : lastHeaderIdx ls = none) :
    lastHeaderIdx (l :: ls)
      = if strContains l rosterMarker then some 0 else none := by
  simp only [lastHeaderIdx, h]

theorem getLineD_append (pre : List String) (x : String) (rest : List String) :
    getLineD (pre ++ x :: rest) pre.length = x := by
  induction pre with
  | nil => rfl
  | cons y ys ih => simpa [getLineD, List.getD] using ih

theorem drop_append_cons (pre : List String) (x : String) (rest : List String) :
    (pre ++ x :: rest).drop (pre.length + 1) = rest := by
  induction pre with
  | nil => rfl
  | cons y ys ih => simp

/-- C6: roster parsing of `onlineplayers`: if the last header is
`List of players (3)` followed by three non-blank entry lines, a blank line
and unrelated trailing text, the result is count 3 and exactly the cleaned
entries in order, de-duplicated preserving first appearance (so exactly those
three when distinct); a last header `List of players (0)` with nothing after
it yields count 0 and an empty roster. -/
theorem roster_scenarios (pre trailing : List String) (e1 e2 e3 : String)
    (h1 : strContains e1 rosterMarker = false)
    (h2 : strContains e2 rosterMarker = false)
    (h3 : strContains e3 rosterMarker = false)
    (ht : ∀ l ∈ trailing, strContains l rosterMarker = false)
    (b1 : isBlankLine e1 = false) (b2 : isBlankLine e2 = false)
    (b3 : isBlankLine e3 = false) :
    parseRoster (pre ++ headerLine3 :: e1 :: e2 :: e3 :: blankLine :: trailing)
      = (3, dedupe [cleanEntry e1, cleanEntry e2, cleanEntry e3])
    ∧ (∀ pre2 : List String, parseRoster (pre2 ++ [headerLine0]) = (0, []))
    ∧ (∀ a b c : String, a ≠ b → a ≠ c → b ≠ c →
        dedupe [a, b, c] = [a, b, c]) := by
  refine ⟨?_, ?_, ?_⟩
  · have hnone : lastHeaderIdx (e1 :: e2 :: e3 :: blankLine :: trailing) = none := by
      apply lastHeaderIdx_none
      intro l hl
      simp only [List.mem_cons] at hl
      rcases hl with rfl | rfl | rfl | rfl | h
      · exact h1
      · exact h2
      · exact h3
      · decide
      · exact ht l h
    have hsuf : lastHeaderIdx (headerLine3 :: e1 :: e2 :: e3 :: blankLine :: trailing)
        = some 0 := by
      rw [lastHeaderIdx_cons_none _ _ hnone]
      decide
    have hidx := lastHeaderIdx_append pre _ 0 hsuf
    have hline := getLineD_append pre headerLine3 (e1 :: e2 :: e3 :: blankLine :: trailing)
    have hdrop := drop_append_cons pre headerLine3 (e1 :: e2 :: e3 :: blankLine :: trailing)
    simp only [parseRoster, hidx, Nat.add_zero, hline, hdrop]
    have hcount : extractCount headerLine3 = 3 := by decide
    rw [hcount]
    have hb : isBlankLine blankLine = true := by decide
    simp [List.takeWhile, b1, b2, b3, hb]
  · intro pre2
    have hsuf : lastHeaderIdx [headerLine0] = some 0 := by decide
    have hidx := lastHeaderIdx_append pre2 _ 0 hsuf
    have hline := getLineD_append pre2 headerLine0 []
    simp only [parseRoster, hidx, Nat.add_zero, hline]
    have hcount : extractCount headerLine0 = 0 := by decide
    rw [hcount]
    rfl
  · intro a b c hab hac hbc
    simp [dedupe, dedupeAux, hab, hac, hbc, Ne.symm hab, Ne.symm hac, Ne.symm hbc]

/-- Witness for C6: an older header precedes the last one; the three entries
exercise decoration stripping and punctuation preservation. -/
theorem roster_scenarios_witness :
    parseRoster (preSample ++ headerLine3 :: entrySampleA :: entrySampleB ::
        entrySampleC :: blankLine :: trailSample)
      = (3, ["Alice", "- .dot", "Bob"])
    ∧ parseRoster ([headerLine3] ++ [headerLine0]) = (0, []) := by
  have h := roster_scenarios preSample trailSample entrySampleA entrySampleB entrySampleC
    (by decide) (by decide) (by decide) (by decide) (by decide) (by decide) (by decide)
  refine ⟨?_, h.2.1 [headerLine3]⟩
  rw [h.1]
  decide

/-! ### The octet and hex component searches -/

theorem zeroOne_digit {c : Char} (h : decide (c = '0' ∨ c = '1') = true) :
    digitB c = true := by
  rcases of_decide_eq_true h with rfl | rfl <;> decide

theorem zeroOne_digit' {c : Char} (h : c = '0' ∨ c = '1') : digitB c = true := by
  rcases h with rfl | rfl <;> decide

theorem le5_digit {c : Char} (h : decide ('0' ≤ c ∧ c ≤ '5') = true) :
    digitB c = true := by
  have h' := of_decide_eq_true h
  simp only [digitB, decide_eq_true_eq]
  exact ⟨h'.1, le_trans h'.2 (by decide)⟩

theorem le4_digit {c : Char} (h : decide ('0' ≤ c ∧ c ≤ '4') = true) :
    digitB c = true := by
  have h' := of_decide_eq_true h
  simp only [digitB, decide_eq_true_eq]
  exact ⟨h'.1, le_trans h'.2 (by decide)⟩

theorem mem_ite_singleton {b : Bool} {v l : Nat} :
    l ∈ (if b then [v] else ([] : List Nat)) ↔ b = true ∧ l = v := by
  cases b <;> simp

theorem octetLens_sound {cs : List Char} {l : Nat} (h : l ∈ octetLens cs) :
    l ≤ cs.length ∧ octetOK (cs.take l) = true := by
  rcases cs with _ | ⟨c0, cs⟩
  · simp [octetLens] at h
  rcases cs with _ | ⟨c1, cs⟩
  · simp only [octetLens, List.mem_append, mem_ite_singleton] at h
    simp at h
    obtain ⟨hd, rfl⟩ := h
    exact ⟨by simp, by simpa [octetOK] using hd⟩
  rcases cs with _ | ⟨c2, cs⟩
  · simp only [octetLens, List.mem_append, mem_ite_singleton] at h
    simp at h
    rcases h with (⟨⟨h1, h2⟩, rfl⟩ | ⟨⟨h1, h2⟩, rfl⟩) | ⟨h1, rfl⟩
    · exact ⟨by simp, by simp [octetOK, zeroOne_digit' h1, h2]⟩
    · exact ⟨by simp, by simp [octetOK, h1, h2]⟩
    · exact ⟨by simp, by simp [octetOK, h1]⟩
  simp only [octetLens, List.mem_append, mem_ite_singleton] at h
  simp at h
  rcases h with (⟨⟨⟨ha, hb⟩, hc⟩, rfl⟩ | ⟨⟨⟨ha, hb⟩, hc⟩, rfl⟩)
    | (((⟨⟨⟨ha, hb⟩, hc⟩, rfl⟩ | ⟨⟨ha, hb⟩, rfl⟩) | ⟨⟨ha, hb⟩, rfl⟩) | ⟨ha, rfl⟩)
  · refine ⟨by simp, ?_⟩
    simp [octetOK]
    tauto
  · refine ⟨by simp, ?_⟩
    simp [octetOK]
    tauto
  · refine ⟨by simp, ?_⟩
    have hd := zeroOne_digit' ha
    simp [octetOK]
    tauto
  · refine ⟨by simp, ?_⟩
    have hd := zeroOne_digit' ha
    simp [octetOK]
    tauto
  · exact ⟨by simp, by simp [octetOK, ha, hb]⟩
  · exact ⟨by simp, by simp [octetOK, ha]⟩

theorem octetLens_complete {cs : List Char} {l : Nat} (hlen : l ≤ cs.length)
    (h : octetOK (cs.take l) = true) : l ∈ octetLens cs := by
  rcases l with _ | _ | _ | _ | n
  · simp [octetOK] at h
  · rcases cs with _ | ⟨c0, cs⟩
    · simp at hlen
    · simp [octetOK] at h
      simp [octetLens, mem_ite_singleton, h]
  · rcases cs with _ | ⟨c0, cs⟩
    · simp at hlen
    rcases cs with _ | ⟨c1, cs⟩
    · simp at hlen
    · simp [octetOK] at h
      simp [octetLens, mem_ite_singleton, h]
  · rcases cs with _ | ⟨c0, cs⟩
    · simp at hlen
    rcases cs with _ | ⟨c1, cs⟩
    · simp at hlen
    rcases cs with _ | ⟨c2, cs⟩
    · simp at hlen
    · simp [octetOK] at h
      simp only [octetLens, List.mem_append, mem_ite_singleton]
      simp
      tauto
  · rcases cs with _ | ⟨c0, cs⟩
    · simp at hlen
    rcases cs with _ | ⟨c1, cs⟩
    · simp at hlen
    rcases cs with _ | ⟨c2, cs⟩
    · simp at hlen
    rcases cs with _ | ⟨c3, cs⟩
    · simp at hlen
    · simp [octetOK, List.take_succ_cons] at h

theorem hexRun_le_length : ∀ cs : List Char, hexRun cs ≤ cs.length
  | [] => by simp [hexRun]
  | c :: cs => by
    have ih := hexRun_le_length cs
    by_cases h : hexB c = true
    · simp [hexRun, h]
      omega
    · simp [hexRun, h]

theorem take_all_hex : ∀ (cs : List Char) (l : Nat), l ≤ hexRun cs →
    ∀ c ∈ cs.take l, hexB c = true
  | _, 0, _ => by simp
  | [], _ + 1, h => by simp [hexRun] at h
  | c :: cs, l + 1, h => by
    cases hc : hexB c with
    | false => simp [hexRun, hc] at h
    | true =>
      intro x hx
      rw [List.take_succ_cons] at hx
      rcases List.mem_cons.mp hx with rfl | hx'
      · exact hc
      · have h' : l ≤ hexRun cs := by
          simp [hexRun, hc] at h
          omega
        exact take_all_hex cs l h' x hx'

theorem hexRun_ge : ∀ (cs : List Char) (l : Nat), l ≤ cs.length →
    (∀ c ∈ cs.take l, hexB c = true) → l ≤ hexRun cs
  | _, 0, _, _ => Nat.zero_le _
  | [], l + 1, h, _ => by simp at h
  | c :: cs, l + 1, h, hall => by
    have hc : hexB c = true := hall c (by simp)
    have ih := hexRun_ge cs l (by simpa using h)
      (fun x hx => hall x (by simp [List.take_succ_cons, hx]))
    simp [hexRun, hc]
    omega

theorem hexRun_append_stop : ∀ (g rest : List Char) (x : Char),
    hexB x = false → (∀ c ∈ g, hexB c = true) →
    hexRun (g ++ x :: rest) = g.length
  | [], rest, x, hx, _ => by simp [hexRun, hx]
  | c :: g, rest, x, hx, hall => by
    have hc : hexB c = true := hall c (by simp)
    have ih := hexRun_append_stop g rest x hx (fun y hy => hall y (by simp [hy]))
    simp [hexRun, hc, ih]

theorem hexLens_mem {cs : List Char} {l : Nat} :
    l ∈ hexLens cs ↔ 1 ≤ l ∧ l ≤ 4 ∧ l ≤ hexRun cs := by
  simp only [hexLens, List.mem_map, List.mem_reverse, List.mem_range, Nat.lt_min]
  constructor
  · rintro ⟨a, ha, rfl⟩
    omega
  · rintro ⟨h1, h2, h3⟩
    exact ⟨l - 1, by omega, by omega⟩

theorem head?_mem {α : Type} {l : List α} {a : α} (h : l.head? = some a) :
    a ∈ l := by
  cases l with
  | nil => simp at h
  | cons x xs =>
    simp at h
    simp [h]

theorem hexLens_head {cs : List Char} (h : 1 ≤ hexRun cs) :
    (hexLens cs).head? = some (min (hexRun cs) 4) := by
  obtain ⟨m, hm⟩ : ∃ m, min (hexRun cs) 4 = m + 1 :=
    ⟨min (hexRun cs) 4 - 1, by omega⟩
  rw [hexLens, hm]
  simp [List.range_succ]

/-! ### Soundness and completeness of the IPv4 alternative -/

theorem endBoundary_iff (cs : List Char) (n : Nat) :
    endBoundary (cs.drop n) = true ↔
      (cs.get? n = none ∨ ∃ c, cs.get? n = some c ∧ wordB c = false) := by
  rcases hd : cs.drop n with _ | ⟨c, rest⟩
  · have hg : cs.get? n = none := by
      rw [← head?_drop_eq_get?, hd]
      rfl
    constructor
    · intro _
      exact Or.inl hg
    · intro _
      rfl
  · have hg : cs.get? n = some c := by
      rw [← head?_drop_eq_get?, hd]
      rfl
    constructor
    · intro h
      refine Or.inr ⟨c, hg, ?_⟩
      simpa [endBoundary] using h
    · rintro (h | ⟨c', hc', hw⟩)
      · rw [hg] at h
        exact absurd h (by simp)
      · rw [hg] at hc'
        obtain rfl : c = c' := by injection hc'
        simp [endBoundary, hw]

theorem matchV4Units_sound : ∀ (k : Nat) (cs : List Char) (n : Nat),
    matchV4Units k cs = some n →
    n ≤ cs.length ∧ V4Body k (cs.take n) ∧
      (cs.get? n = none ∨ ∃ c, cs.get? n = some c ∧ wordB c = false)
  | 0, cs, n, h => by
    rw [matchV4Units] at h
    obtain ⟨l, hl, hf⟩ := firstSome_eq_some_ex _ _ _ h
    by_cases hend : endBoundary (cs.drop l) = true
    · rw [if_pos hend] at hf
      obtain rfl : l = n := by injection hf
      obtain ⟨hlen, hoct⟩ := octetLens_sound hl
      exact ⟨hlen, hoct, (endBoundary_iff cs l).mp hend⟩
    · rw [if_neg hend] at hf
      exact absurd hf (by simp)
  | k + 1, cs, n, h => by
    rw [matchV4Units] at h
    obtain ⟨l, hl, hf⟩ := firstSome_eq_some_ex _ _ _ h
    rcases hd : cs.drop l with _ | ⟨c, rest⟩
    · rw [hd] at hf
      exact absurd hf (by simp)
    · rw [hd] at hf
      by_cases hc : c = '.'
      · subst hc
        simp only [Option.map_eq_some'] at hf
        obtain ⟨r, hr, rfl⟩ := hf
        obtain ⟨ih1, ih2, ih3⟩ := matchV4Units_sound k rest r hr
        obtain ⟨hlen, hoct⟩ := octetLens_sound hl
        obtain ⟨e1, e2, e3, _⟩ := drop_cons_split l cs rest hd
        refine ⟨by omega, ?_, ?_⟩
        · rw [e2 r]
          exact ⟨cs.take l, rest.take r, rfl, hoct, ih2⟩
        · rw [e3 r]
          exact ih3
      · have hnone : (match c :: rest with
            | '.' :: rest => (matchV4Units k rest).map (fun r => l + 1 + r)
            | _ => (none : Option Nat)) = none := by
          split
          · rename_i heq
            injection heq with heqc _
            exact absurd heqc hc
          · rfl
        rw [hnone] at hf
        exact absurd hf (by simp)

theorem matchV4Units_complete : ∀ (k : Nat) (cs : List Char) (n : Nat),
    n ≤ cs.length → V4Body k (cs.take n) →
    (cs.get? n = none ∨ ∃ c, cs.get? n = some c ∧ wordB c = false) →
    (matchV4Units k cs).isSome = true
  | 0, cs, n, hn, hb, hbd => by
    rw [matchV4Units]
    have hmem : n ∈ octetLens cs := octetLens_complete hn hb
    have hend : endBoundary (cs.drop n) = true := (endBoundary_iff cs n).mpr hbd
    exact firstSome_isSome_of _ _ n n hmem (by rw [if_pos hend])
  | k + 1, cs, n, hn, hb, hbd => by
    rw [matchV4Units]
    obtain ⟨o, rest', heq, hoct, hbody⟩ := hb
    obtain ⟨hs1, hs2, hs3, hs4⟩ := take_split_at o cs n rest' hn heq
    have hll : o.length ≤ cs.length := by omega
    have hmem : o.length ∈ octetLens cs := by
      apply octetLens_complete hll
      rw [hs1]
      exact hoct
    have hrlen : n - o.length - 1 ≤ (cs.drop (o.length + 1)).length := by
      simp only [List.length_drop]
      omega
    have hbody' : V4Body k ((cs.drop (o.length + 1)).take (n - o.length - 1)) := by
      rw [hs3]
      exact hbody
    have hbd' : (cs.drop (o.length + 1)).get? (n - o.length - 1) = none ∨
        ∃ c, (cs.drop (o.length + 1)).get? (n - o.length - 1) = some c ∧
          wordB c = false := by
      rw [get?_drop_eq]
      have e : o.length + 1 + (n - o.length - 1) = n := by omega
      rw [e]
      exact hbd
    have hrec := matchV4Units_complete k (cs.drop (o.length + 1))
      (n - o.length - 1) hrlen hbody' hbd'
    obtain ⟨r, hr⟩ := Option.isSome_iff_exists.mp hrec
    apply firstSome_isSome_of _ _ o.length (o.length + 1 + r) hmem
    rw [hs2]
    show (matchV4Units k (cs.drop (o.length + 1))).map
      (fun r => o.length + 1 + r) = some (o.length + 1 + r)
    rw [hr]
    rfl

theorem matchIPv4_sound {prevW : Bool} {cs : List Char} {n : Nat}
    (h : matchIPv4 prevW cs = some n) : IPv4At prevW cs n := by
  rw [matchIPv4] at h
  by_cases hw : prevW = true
  · rw [if_pos hw] at h
    exact absurd h (by simp)
  · rw [if_neg hw] at h
    have hw' : prevW = false := by simpa using hw
    obtain ⟨h1, h2, h3⟩ := matchV4Units_sound 3 cs n h
    exact ⟨hw', h1, h2, h3⟩

theorem matchIPv4_complete {prevW : Bool} {cs : List Char} {n : Nat}
    (h : IPv4At prevW cs n) : (matchIPv4 prevW cs).isSome = true := by
  obtain ⟨hw, h1, h2, h3⟩ := h
  rw [matchIPv4, hw]
  simpa using matchV4Units_complete 3 cs n h1 h2 h3

/-! ### Soundness and completeness of the IPv6 alternative -/

theorem matchV6Group_sound {cs : List Char} {t : Nat}
    (h : matchV6Group cs = some t) :
    ∃ l, t = l + 1 ∧ HexPart (cs.take l) ∧ cs.drop l = ':' :: cs.drop (l + 1) := by
  rw [matchV6Group] at h
  obtain ⟨l, hl, hf⟩ := firstSome_eq_some_ex _ _ _ h
  rcases hd : cs.drop l with _ | ⟨c, rest⟩
  · rw [hd] at hf
    exact absurd hf (by simp)
  · rw [hd] at hf
    by_cases hc : c = ':'
    · subst hc
      have hf' : some (l + 1) = some t := hf
      obtain rfl : l + 1 = t := by injection hf'
      obtain ⟨h1, h2, h3⟩ := hexLens_mem.mp hl
      have hlen : l ≤ cs.length := le_trans h3 (hexRun_le_length cs)
      obtain ⟨_, _, _, e4⟩ := drop_cons_split l cs rest hd
      refine ⟨l, rfl, ⟨?_, ?_, take_all_hex cs l h3⟩, ?_⟩
      · simp
        omega
      · simp
        omega
      · rw [hd, e4]
    · have hnone : (match c :: rest with
          | ':' :: _ => some (l + 1)
          | _ => (none : Option Nat)) = none := by
        split
        · rename_i heq
          injection heq with heqc _
          exact absurd heqc hc
        · rfl
      rw [hnone] at hf
      exact absurd hf (by simp)

theorem matchV6Group_complete {g rest : List Char} (hg : HexPart g) :
    matchV6Group (g ++ ':' :: rest) = some (g.length + 1) := by
  obtain ⟨hg1, _, hg3⟩ := hg
  have hrun : hexRun (g ++ ':' :: rest) = g.length :=
    hexRun_append_stop g rest ':' (by decide) hg3
  have hhead : (hexLens (g ++ ':' :: rest)).head? = some g.length := by
    rw [hexLens_head (by rw [hrun]; exact hg1), hrun]
    congr 1
    omega
  rcases hl : hexLens (g ++ ':' :: rest) with _ | ⟨a, tl⟩
  · rw [hl] at hhead
    exact absurd hhead (by simp)
  · rw [hl] at hhead
    have ha : a = g.length := by injection hhead
    subst ha
    rw [matchV6Group, hl]
    apply firstSome_cons_some
    have hdrop : (g ++ ':' :: rest).drop g.length = ':' :: rest := by
      simp
    rw [hdrop]
    rfl

theorem tryFinish_sound {m : Nat} {cs : List Char} {n : Nat}
    (h : (if 2 ≤ m then (hexLens cs).head? else none) = some n) :
    2 ≤ m ∧ n ≤ cs.length ∧ HexPart (cs.take n) := by
  by_cases hm : 2 ≤ m
  · rw [if_pos hm] at h
    obtain ⟨h1, h2, h3⟩ := hexLens_mem.mp (head?_mem h)
    have hlen : n ≤ cs.length := le_trans h3 (hexRun_le_length cs)
    refine ⟨hm, hlen, ⟨?_, ?_, take_all_hex cs n h3⟩⟩
    · simp
      omega
    · simp
      omega
  · rw [if_neg hm] at h
    exact absurd h (by simp)

theorem matchV6From_sound : ∀ (r m : Nat) (cs : List Char) (n : Nat),
    matchV6From r m cs = some n →
    n ≤ cs.length ∧ ∃ k, k ≤ r ∧ 2 ≤ m + k ∧ V6Body k (cs.take n)
  | 0, m, cs, n, h => by
    rw [matchV6From] at h
    obtain ⟨hm, hlen, hpart⟩ := tryFinish_sound h
    exact ⟨hlen, 0, by omega, by omega, hpart⟩
  | r + 1, m, cs, n, h => by
    rw [matchV6From] at h
    rcases hg : matchV6Group cs with _ | g
    · rw [hg] at h
      obtain ⟨hm, hlen, hpart⟩ := tryFinish_sound h
      exact ⟨hlen, 0, by omega, by omega, hpart⟩
    · rw [hg] at h
      have h2 : (match matchV6From r (m + 1) (cs.drop g) with
          | some nn => some (g + nn)
          | none => if 2 ≤ m then (hexLens cs).head? else none) = some n := h
      clear h
      rcases hr : matchV6From r (m + 1) (cs.drop g) with _ | nn
      · rw [hr] at h2
        obtain ⟨hm, hlen, hpart⟩ := tryFinish_sound h2
        exact ⟨hlen, 0, by omega, by omega, hpart⟩
      · rw [hr] at h2
        have h' : some (g + nn) = some n := h2
        obtain rfl : g + nn = n := by injection h'
        obtain ⟨l, rfl, hpart, hdrop⟩ := matchV6Group_sound hg
        obtain ⟨ih1, k', hk1, hk2, hbody⟩ :=
          matchV6From_sound r (m + 1) (cs.drop (l + 1)) nn hr
        obtain ⟨e1, e2, e3, e4⟩ := drop_cons_split l cs (cs.drop (l + 1)) hdrop
        have hlen2 : (cs.drop (l + 1)).length = cs.length - l - 1 := by
          simp
          omega
        refine ⟨by omega, k' + 1, by omega, by omega, ?_⟩
        have e : l + 1 + nn = l + 1 + nn := rfl
        rw [show l + 1 + nn = l + 1 + nn from rfl, e2 nn]
        exact ⟨cs.take l, (cs.drop (l + 1)).take nn, rfl, hpart, hbody⟩

theorem matchV6From_complete : ∀ (k r m : Nat) (cs : List Char) (n : Nat),
    k ≤ r → 2 ≤ m + k → n ≤ cs.length → V6Body k (cs.take n) →
    (matchV6From r m cs).isSome = true
  | 0, r, m, cs, n, _, hmk, hn, hb => by
    obtain ⟨h1, _, h3⟩ := hb
    have hlen : (cs.take n).length = n := by
      simp
      omega
    have hrunn : n ≤ hexRun cs := hexRun_ge cs n hn h3
    have htf : (if 2 ≤ m then (hexLens cs).head? else none).isSome = true := by
      rw [if_pos (by omega), hexLens_head (by omega)]
      rfl
    cases r with
    | zero =>
      rw [matchV6From]
      exact htf
    | succ r =>
      rw [matchV6From]
      rcases hg : matchV6Group cs with _ | g
      · exact htf
      · show (match matchV6From r (m + 1) (cs.drop g) with
          | some nn => some (g + nn)
          | none => if 2 ≤ m then (hexLens cs).head? else none).isSome = true
        rcases hrec : matchV6From r (m + 1) (cs.drop g) with _ | nn
        · exact htf
        · rfl
  | k + 1, r, m, cs, n, hkr, hmk, hn, hb => by
    obtain ⟨g, rest', heq, hgpart, hbody⟩ := hb
    obtain ⟨hs1, hs2, hs3, hs4⟩ := take_split_at g cs n rest' hn heq
    have hcs : cs = g ++ ':' :: cs.drop (g.length + 1) := by
      conv_lhs => rw [← List.take_append_drop g.length cs]
      rw [hs1, hs2]
    have hgrp : matchV6Group cs = some (g.length + 1) := by
      conv_lhs => rw [hcs]
      exact matchV6Group_complete hgpart
    cases r with
    | zero => omega
    | succ r =>
      rw [matchV6From, hgrp]
      show (match matchV6From r (m + 1) (cs.drop (g.length + 1)) with
        | some nn => some (g.length + 1 + nn)
        | none => if 2 ≤ m then (hexLens cs).head? else none).isSome = true
      have hrec : (matchV6From r (m + 1) (cs.drop (g.length + 1))).isSome = true := by
        apply matchV6From_complete k r (m + 1) _ (n - g.length - 1)
          (by omega) (by omega)
        · simp
          omega
        · rw [hs3]
          exact hbody
      rcases hrr : matchV6From r (m + 1) (cs.drop (g.length + 1)) with _ | nn
      · rw [hrr] at hrec
        exact absurd hrec (by simp)
      · rfl

theorem matchIPv6_sound {cs : List Char} {n : Nat} (h : matchIPv6 cs = some n) :
    IPv6At cs n := by
  obtain ⟨h1, k, hk1, hk2, hb⟩ := matchV6From_sound 7 0 cs n h
  exact ⟨h1, k, by omega, hk1, hb⟩

theorem matchIPv6_complete {cs : List Char} {n : Nat} (h : IPv6At cs n) :
    (matchIPv6 cs).isSome = true := by
  obtain ⟨h1, k, hk2, hk7, hb⟩ := h
  exact matchV6From_complete k 7 0 cs n hk7 (by omega) h1 hb

/-! ### The whole pattern -/

theorem matchIP_sound {w : Bool} {cs : List Char} {n : Nat}
    (h : matchIP w cs = some n) : MatchAt w cs n := by
  rw [matchIP] at h
  rcases h4 : matchIPv4 w cs with _ | n4
  · rw [h4] at h
    exact Or.inr (matchIPv6_sound h)
  · rw [h4] at h
    have h' : some n4 = some n := h
    obtain rfl : n4 = n := by injection h'
    exact Or.inl (matchIPv4_sound h4)

theorem matchIP_complete {w : Bool} {cs : List Char} {n : Nat}
    (h : MatchAt w cs n) : (matchIP w cs).isSome = true := by
  rw [matchIP]
  rcases h4 : matchIPv4 w cs with _ | n4
  · rcases h with hv4 | hv6
    · have := matchIPv4_complete hv4
      rw [h4] at this
      exact absurd this (by simp)
    · exact matchIPv6_complete hv6
  · rfl

/-! ### Shape facts about matched spans -/

theorem digit_hex {c : Char} (h : digitB c = true) : hexB c = true := by
  simp [hexB, h]

theorem le5_digitP {c : Char} (h : '0' ≤ c ∧ c ≤ '5') : digitB c = true := by
  simp only [digitB, decide_eq_true_eq]
  exact ⟨h.1, le_trans h.2 (by decide)⟩

theorem le4_digitP {c : Char} (h : '0' ≤ c ∧ c ≤ '4') : digitB c = true := by
  simp only [digitB, decide_eq_true_eq]
  exact ⟨h.1, le_trans h.2 (by decide)⟩

theorem octetOK_digits {s : List Char} (h : octetOK s = true) :
    ∀ c ∈ s, digitB c = true := by
  rcases s with _ | ⟨c0, s⟩
  · simp [octetOK] at h
  rcases s with _ | ⟨c1, s⟩
  · intro c hc
    rcases List.mem_singleton.mp hc with rfl
    simpa [octetOK] using h
  rcases s with _ | ⟨c2, s⟩
  · simp [octetOK] at h
    intro c hc
    rcases List.mem_cons.mp hc with rfl | hc'
    · exact h.1
    · rcases List.mem_singleton.mp hc' with rfl
      exact h.2
  rcases s with _ | ⟨c3, s⟩
  · simp [octetOK] at h
    intro c hc
    have hm : c = c0 ∨ c = c1 ∨ c = c2 := by simpa using hc
    rcases hm with rfl | rfl | rfl
    · rcases h with (⟨⟨e0, _⟩, _⟩ | ⟨⟨e0, _⟩, _⟩) | ⟨⟨e0, _⟩, _⟩
      · subst e0
        decide
      · subst e0
        decide
      · exact zeroOne_digit' e0
    · rcases h with (⟨⟨_, e1⟩, _⟩ | ⟨⟨_, e1⟩, _⟩) | ⟨⟨_, e1⟩, _⟩
      · subst e1
        decide
      · exact le4_digitP e1
      · exact e1
    · rcases h with (⟨_, e2⟩ | ⟨_, e2⟩) | ⟨_, e2⟩
      · exact le5_digitP e2
      · exact e2
      · exact e2
  · simp [octetOK] at h

theorem V4Body_digits : ∀ (k : Nat) (s : List Char), V4Body k s →
    ∀ c ∈ s, digitB c = true ∨ c = '.'
  | 0, _, h => fun c hc => Or.inl (octetOK_digits h c hc)
  | k + 1, s, h => by
    obtain ⟨o, rest, rfl, hoct, hbody⟩ := h
    intro c hc
    rcases List.mem_append.mp hc with hc | hc
    · exact Or.inl (octetOK_digits hoct c hc)
    · rcases List.mem_cons.mp hc with rfl | hc'
      · exact Or.inr rfl
      · exact V4Body_digits k rest hbody c hc'

theorem V6Body_hex : ∀ (k : Nat) (s : List Char), V6Body k s →
    ∀ c ∈ s, hexB c = true ∨ c = ':'
  | 0, _, h => fun c hc => Or.inl (h.2.2 c hc)
  | k + 1, s, h => by
    obtain ⟨g, rest, rfl, hg, hbody⟩ := h
    intro c hc
    rcases List.mem_append.mp hc with hc | hc
    · exact Or.inl (hg.2.2 c hc)
    · rcases List.mem_cons.mp hc with rfl | hc'
      · exact Or.inr rfl
      · exact V6Body_hex k rest hbody c hc'

/-- Every character of a matched span is a hex digit, a dot or a colon — in
particular never the letter X of the mask. -/
theorem MatchAt_chars {w : Bool} {cs : List Char} {n : Nat} (h : MatchAt w cs n) :
    ∀ c ∈ cs.take n, hexB c = true ∨ c = '.' ∨ c = ':' := by
  intro c hc
  rcases h with ⟨_, _, hb, _⟩ | ⟨_, k, _, _, hb⟩
  · rcases V4Body_digits 3 _ hb c hc with hd | hd
    · exact Or.inl (digit_hex hd)
    · exact Or.inr (Or.inl hd)
  · rcases V6Body_hex k _ hb c hc with hd | hd
    · exact Or.inl hd
    · exact Or.inr (Or.inr hd)

theorem octetOK_ne_nil {s : List Char} (h : octetOK s = true) : s ≠ [] := by
  intro he
  subst he
  simp [octetOK] at h

theorem V4Body_ne_nil : ∀ (k : Nat) (s : List Char), V4Body k s → s ≠ []
  | 0, _, h => octetOK_ne_nil h
  | _ + 1, s, h => by
    obtain ⟨o, rest, rfl, _, _⟩ := h
    simp

theorem V6Body_ne_nil : ∀ (k : Nat) (s : List Char), V6Body k s → s ≠ []
  | 0, s, h => by
    intro he
    subst he
    have h1 := h.1
    simp at h1
  | _ + 1, s, h => by
    obtain ⟨g, rest, rfl, _, _⟩ := h
    simp

/-- A match is never empty. -/
theorem MatchAt_pos {w : Bool} {cs : List Char} {n : Nat} (h : MatchAt w cs n) :
    1 ≤ n := by
  by_contra hn
  have hn0 : n = 0 := by omega
  subst hn0
  rcases h with ⟨_, _, hb, _⟩ | ⟨_, k, _, _, hb⟩
  · exact V4Body_ne_nil 3 _ hb (by simp)
  · exact V6Body_ne_nil k _ hb (by simp)

theorem V4Body_head : ∀ (k : Nat) (c : Char) (s : List Char),
    V4Body k (c :: s) → digitB c = true
  | 0, _, _, h => octetOK_digits h _ (by simp)
  | _ + 1, c, s, h => by
    obtain ⟨o, rest, heq, hoct, _⟩ := h
    rcases o with _ | ⟨c0, o⟩
    · exact absurd hoct (by simp [octetOK])
    · have hc : c = c0 := by injection heq
      subst hc
      exact octetOK_digits hoct c (by simp)

theorem V6Body_head : ∀ (k : Nat) (c : Char) (s : List Char),
    V6Body k (c :: s) → hexB c = true
  | 0, _, _, h => h.2.2 _ (by simp)
  | _ + 1, c, s, h => by
    obtain ⟨g, rest, heq, hg, _⟩ := h
    rcases g with _ | ⟨c0, g⟩
    · have h1 := hg.1
      simp at h1
    · have hc : c = c0 := by injection heq
      subst hc
      exact hg.2.2 c (by simp)

/-- A match can only start on a hex digit; in particular never on the `X` or
`.` of the mask. -/
theorem matchIP_cons_of_nonhex {w : Bool} {c : Char} {cs : List Char}
    (hc : hexB c = false) : matchIP w (c :: cs) = none := by
  rcases hm : matchIP w (c :: cs) with _ | n
  · rfl
  · exfalso
    have h := matchIP_sound hm
    have hpos := MatchAt_pos h
    obtain ⟨m, rfl⟩ : ∃ m, n = m + 1 := ⟨n - 1, by omega⟩
    rcases h with ⟨_, _, hb, _⟩ | ⟨_, k, _, _, hb⟩
    · rw [List.take_succ_cons] at hb
      exact absurd (digit_hex (V4Body_head 3 c _ hb)) (by simp [hc])
    · rw [List.take_succ_cons] at hb
      exact absurd (V6Body_head k c _ hb) (by simp [hc])

/-! ### No match survives the substitution scan -/

theorem matchIP_ne_some_zero {w : Bool} {cs : List Char} :
    matchIP w cs ≠ some 0 := by
  intro h
  have := MatchAt_pos (matchIP_sound h)
  omega

theorem subScanF_cons_none {fuel : Nat} {w : Bool} {c : Char} {cs : List Char}
    (h : matchIP w (c :: cs) = none) :
    subScanF (fuel + 1) w (c :: cs) = c :: subScanF fuel (wordB c) cs := by
  rw [subScanF, h]

theorem subScanF_cons_some {fuel : Nat} {w : Bool} {c : Char} {cs : List Char}
    {n : Nat} (h : matchIP w (c :: cs) = some (n + 1)) :
    subScanF (fuel + 1) w (c :: cs) = maskChars ++ subScanF fuel true (cs.drop n) := by
  rw [subScanF, h]

theorem hasMatch_mask_append (w : Bool) (rest : List Char) :
    hasMatch w (maskChars ++ rest) = hasMatch true rest := by
  have hX : ∀ (v : Bool) (cs : List Char), matchIP v ('X' :: cs) = none :=
    fun v cs => matchIP_cons_of_nonhex (by decide)
  have hD : ∀ (v : Bool) (cs : List Char), matchIP v ('.' :: cs) = none :=
    fun v cs => matchIP_cons_of_nonhex (by decide)
  have hwX : wordB 'X' = true := by decide
  have hwD : wordB '.' = false := by decide
  simp only [maskChars, List.cons_append, List.nil_append, hasMatch, hX, hD,
    hwX, hwD, Option.isSome_none, Bool.false_or]
  rfl

theorem subScanF_agree : ∀ (fuel : Nat) (w : Bool) (cs : List Char) (k : Nat),
    cs.length ≤ fuel →
    (∀ i, i < k → (subScanF fuel w cs).get? i ≠ some 'X') →
    (subScanF fuel w cs).take k = cs.take k ∧
      ((subScanF fuel w cs).get? k = cs.get? k ∨
        (subScanF fuel w cs).get? k = some 'X')
  | 0, w, cs, k, hf, _ => by
    have hnil : cs = [] := by
      cases cs with
      | nil => rfl
      | cons c cs => simp at hf
    subst hnil
    exact ⟨rfl, Or.inl rfl⟩
  | fuel + 1, w, [], k, _, _ => ⟨rfl, Or.inl rfl⟩
  | fuel + 1, w, c :: cs, k, hf, hX => by
    rcases hm : matchIP w (c :: cs) with _ | n
    · rcases k with _ | k
      · refine ⟨by simp, Or.inl ?_⟩
        rw [subScanF_cons_none hm]
        rfl
      · have hX' : ∀ i, i < k →
            (subScanF fuel (wordB c) cs).get? i ≠ some 'X' := by
          intro i hi hXi
          have hx := hX (i + 1) (by omega)
          rw [subScanF_cons_none hm] at hx
          exact hx (by simpa using hXi)
        obtain ⟨ih1, ih2⟩ := subScanF_agree fuel (wordB c) cs k
          (by simpa using hf) hX'
        constructor
        · rw [subScanF_cons_none hm, List.take_succ_cons, List.take_succ_cons, ih1]
        · rw [subScanF_cons_none hm]
          simpa using ih2
    · rcases n with _ | n
      · exact absurd hm matchIP_ne_some_zero
      · rcases k with _ | k
        · refine ⟨by simp, Or.inr ?_⟩
          rw [subScanF_cons_some hm]
          rfl
        · exfalso
          apply hX 0 (by omega)
          rw [subScanF_cons_some hm]
          rfl

theorem hasMatch_subScanF : ∀ (fuel : Nat) (w : Bool) (cs : List Char),
    cs.length ≤ fuel → hasMatch w (subScanF fuel w cs) = false
  | 0, w, cs, hf => by
    have hnil : cs = [] := by
      cases cs with
      | nil => rfl
      | cons c cs => simp at hf
    subst hnil
    rfl
  | fuel + 1, w, [], _ => rfl
  | fuel + 1, w, c :: cs, hf => by
    rcases hm : matchIP w (c :: cs) with _ | n
    · rw [subScanF_cons_none hm, hasMatch]
      have ih := hasMatch_subScanF fuel (wordB c) cs (by simpa using hf)
      rw [ih]
      suffices hnone : matchIP w (c :: subScanF fuel (wordB c) cs) = none by
        simp [hnone]
      rcases hm2 : matchIP w (c :: subScanF fuel (wordB c) cs) with _ | m
      · rfl
      · exfalso
        have hsound := matchIP_sound hm2
        have hpos := MatchAt_pos hsound
        obtain ⟨q, rfl⟩ : ∃ q, m = q + 1 := ⟨m - 1, by omega⟩
        have hchars := MatchAt_chars hsound
        have hXfree : ∀ i, i < q →
            (subScanF fuel (wordB c) cs).get? i ≠ some 'X' := by
          intro i hi hXi
          have hmem : 'X' ∈ (c :: subScanF fuel (wordB c) cs).take (q + 1) := by
            rw [List.take_succ_cons]
            refine List.mem_cons_of_mem c ?_
            have hg : ((subScanF fuel (wordB c) cs).take q).get? i = some 'X' := by
              rw [get?_take_lt _ q i hi]
              exact hXi
            exact List.get?_mem hg
          rcases hchars 'X' hmem with hh | hh | hh
          · exact absurd hh (by decide)
          · exact absurd hh (by decide)
          · exact absurd hh (by decide)
        obtain ⟨htake, hget⟩ := subScanF_agree fuel (wordB c) cs q
          (by simpa using hf) hXfree
        have htake' : (c :: subScanF fuel (wordB c) cs).take (q + 1)
            = (c :: cs).take (q + 1) := by
          rw [List.take_succ_cons, List.take_succ_cons, htake]
        have hmlen : q ≤ (subScanF fuel (wordB c) cs).length := by
          rcases hsound with ⟨_, hl, _, _⟩ | ⟨hl, _⟩ <;> simpa using hl
        have hmlen2 : q + 1 ≤ (c :: cs).length := by
          have e1 : ((c :: cs).take (q + 1)).length = q + 1 := by
            rw [← htake']
            simp
            omega
          simp at e1 ⊢
          omega
        have hinput : MatchAt w (c :: cs) (q + 1) := by
          rcases hsound with ⟨hw, _, hb, hbd⟩ | ⟨_, k, hk2, hk7, hb⟩
          · rw [htake'] at hb
            refine Or.inl ⟨hw, hmlen2, hb, ?_⟩
            rcases hget with hgood | hXend
            · have e : (c :: cs).get? (q + 1)
                  = (c :: subScanF fuel (wordB c) cs).get? (q + 1) := by
                rw [List.get?_cons_succ, List.get?_cons_succ, hgood]
              rw [e]
              exact hbd
            · exfalso
              have e : (c :: subScanF fuel (wordB c) cs).get? (q + 1)
                  = some 'X' := by simpa using hXend
              rcases hbd with hnone2 | ⟨cb, hcb, hwb⟩
              · rw [e] at hnone2
                exact absurd hnone2 (by simp)
              · rw [e] at hcb
                obtain rfl : 'X' = cb := by injection hcb
                exact absurd hwb (by decide)
          · rw [htake'] at hb
            exact Or.inr ⟨hmlen2, k, hk2, hk7, hb⟩
        have hcompl := matchIP_complete hinput
        rw [hm] at hcompl
        exact absurd hcompl (by simp)
    · rcases n with _ | n
      · exact absurd hm matchIP_ne_some_zero
      · rw [subScanF_cons_some hm, hasMatch_mask_append]
        have hlen : (cs.drop n).length ≤ fuel := by
          simp at hf ⊢
          omega
        exact hasMatch_subScanF fuel true (cs.drop n) hlen

/-- After the substitution scan no position of the output starts a match of
`ip_pattern`: the redaction leaves no address-shaped substring behind. -/
theorem hasMatch_subScan (w : Bool) (cs : List Char) :
    hasMatch w (subScan w cs) = false :=
  hasMatch_subScanF cs.length w cs le_rfl

/-! ### The fetchlogs outputs -/

theorem drop_isSuffix {α : Type} (l : List α) (n : Nat) :
    List.IsSuffix (l.drop n) l :=
  ⟨l.take n, List.take_append_drop n l⟩

theorem fetchSnippet_suffix (masked : List Char) :
    List.IsSuffix (fetchSnippet masked) masked := by
  simp only [fetchSnippet]
  split
  · split
    · exact (drop_isSuffix _ _).trans (drop_isSuffix _ _)
    · exact drop_isSuffix _ _
  · split
    · exact drop_isSuffix _ _
    · exact List.suffix_refl _

/-- C2 as stated is false on the code: in `"[1.2.3.4] hi\n"` the address sits
inside the timestamp-bracket part, which `fetchlogs` preserves verbatim, so
the redacted text still contains an IPv4-shaped substring although the input
held one outside the (absent) announcement line. -/
theorem redact_claim_counterexample :
    containsSub announceMarker redactCexText = false
    ∧ hasMatch false redactCexText = true
    ∧ maskText redactCexText = redactCexText
    ∧ hasMatch false (maskText redactCexText) = true := by
  refine ⟨by decide, by decide, by decide, by decide⟩

/-- C2 amended: for each line of the capture, an announcement line is kept
whole; any other line either starts with `[` and contains `]` — then
everything through the first `]` is byte-identical in the output and the
redacted remainder contains no IP-shaped substring — or is redacted whole
with no IP-shaped substring remaining; the exported full log is exactly the
redacted text and the inline excerpt is a suffix of it, so redaction is
bypassed in neither output. -/
theorem redact_amended (stdout line : List Char) :
    (containsSub announceMarker line = true → redactLine line = line)
    ∧ (containsSub announceMarker line = false →
        (line.head? = some '[' ∧ line.contains ']' = true ∧
          redactLine line = line.take (closeIdx line + 1)
            ++ subScan false (line.drop (closeIdx line + 1)) ∧
          hasMatch false (subScan false (line.drop (closeIdx line + 1))) = false)
        ∨ (redactLine line = subScan false line ∧
            hasMatch false (subScan false line) = false))
    ∧ fetchFullLogs stdout = maskText stdout
    ∧ List.IsSuffix (fetchSnippet (maskText stdout)) (maskText stdout) := by
  refine ⟨?_, ?_, rfl, fetchSnippet_suffix _⟩
  · intro h
    simp [redactLine, h]
  · intro h
    by_cases hb : (line.head? = some '[' && line.contains ']') = true
    · left
      have hb2 := hb
      simp only [Bool.and_eq_true, decide_eq_true_eq] at hb2
      refine ⟨hb2.1, hb2.2, ?_, hasMatch_subScan false _⟩
      rw [redactLine, if_neg (by simp [h]), if_pos hb]
    · right
      refine ⟨?_, hasMatch_subScan false _⟩
      rw [redactLine, if_neg (by simp [h]), if_neg hb]

/-- Witness for the amended C2 at concrete inputs: the announcement line is
untouched, the bracketed witness line falls in the preserved-then-redacted
case, both outputs derive from the same masked text, and the masked witness
text is the expected redaction. -/
theorem redact_amended_witness :
    redactLine announceLineSample = announceLineSample
    ∧ (containsSub announceMarker redactWitText = false
      ∧ ((redactWitText.head? = some '[' ∧ redactWitText.contains ']' = true ∧
            redactLine redactWitText = redactWitText.take (closeIdx redactWitText + 1)
              ++ subScan false (redactWitText.drop (closeIdx redactWitText + 1)) ∧
            hasMatch false
              (subScan false (redactWitText.drop (closeIdx redactWitText + 1))) = false)
          ∨ (redactLine redactWitText = subScan false redactWitText ∧
              hasMatch false (subScan false redactWitText) = false)))
    ∧ fetchFullLogs redactWitText = maskText redactWitText
    ∧ List.IsSuffix (fetchSnippet (maskText redactWitText)) (maskText redactWitText)
    ∧ maskText redactWitText = redactWitExpected := by
  have hna : containsSub announceMarker redactWitText = false := by decide
  refine ⟨(redact_amended redactWitText announceLineSample).1 (by decide),
    ⟨hna, (redact_amended redactWitText redactWitText).2.1 hna⟩,
    (redact_amended redactWitText redactWitText).2.2.1,
    (redact_amended redactWitText redactWitText).2.2.2, by decide⟩

end SLBot
